import Mathlib

/-!
Verification development for the December-31 sentence extractor
(`31_dic.py`).  The extractor is embedded shallowly over `List Char`:
Python strings become character lists, `str.replace` becomes
`replaceAll`, the `re.split` separator regex and the fifteen compiled
date patterns are translated into an explicit backtracking-matcher
model whose candidate lists reproduce the leftmost / first-alternative
/ lazy-vs-greedy preference order of Python's `re` engine, and the
JSON document shapes become an inductive `JValue` with the fallible
operations (`in`, indexing, iteration, `str.join`) modelled in
`Except Unit`.

Modelling notes kept throughout: `\w` (hence `\b`) is modelled over
its ASCII meaning `[A-Za-z0-9_]`; `\s` is modelled by the six ASCII
whitespace characters.  All texts appearing in concrete statements
below are ASCII (or use non-ASCII characters only where no word
boundary or whitespace decision depends on them), so the modelled
behaviour coincides with Python's on them.
-/

namespace Dic31

/-- One character of Python whitespace (`\s`, ASCII part). -/
def isPyWs (c : Char) : Bool :=
  c == ' ' || c == '\t' || c == '\n' || c == '\r' ||
  c == Char.ofNat 11 || c == Char.ofNat 12

/-- Python `\w` over ASCII: letters, digits, underscore. -/
def isWordCh (c : Char) : Bool :=
  c.isAlphanum || c == '_'

/-- The character class `[A-Z]` of the sentence-endings regex. -/
def isUpperAZ (c : Char) : Bool :=
  'A' ≤ c && c ≤ 'Z'

/-- The separator class `[/\-.\s]` of the numeric patterns. -/
def isSepCh (c : Char) : Bool :=
  c == '/' || c == '-' || c == '.' || isPyWs c

/-- Case folding used for `re.IGNORECASE` literal comparison (ASCII). -/
def lowerCh (c : Char) : Char := c.toLower

/-- Convenience: the character list of a string literal. -/
def strL (s : String) : List Char := s.data

/-- Python `str.strip()` on the modelled whitespace set. -/
def pyStrip (s : List Char) : List Char :=
  (s.dropWhile isPyWs).reverse.dropWhile isPyWs |>.reverse

/-- The scanning loop of Python `str.replace(pat, rep)`, written with
an explicit fuel so that it is structurally recursive (and hence
kernel-evaluable); the fuel never runs out when it starts at the
length of the scanned list. -/
def replaceAllF (pat rep : List Char) : Nat → List Char → List Char
  | _, [] => []
  | 0, c :: rest => c :: rest
  | fuel + 1, c :: rest =>
    if pat ≠ [] ∧ pat.isPrefixOf (c :: rest) then
      rep ++ replaceAllF pat rep fuel ((c :: rest).drop pat.length)
    else
      c :: replaceAllF pat rep fuel rest

/-- Python `str.replace(pat, rep)`: replace every non-overlapping
occurrence of `pat`, scanning left to right.  (All patterns used in
the source are non-empty; an empty pattern is treated as no-op.) -/
def replaceAll (pat rep : List Char) (s : List Char) : List Char :=
  replaceAllF pat rep s.length s

theorem replaceAllF_fuel (pat rep : List Char) :
    ∀ (fuel fuel2 : Nat) (s : List Char), s.length ≤ fuel → s.length ≤ fuel2 →
      replaceAllF pat rep fuel s = replaceAllF pat rep fuel2 s := by
  intro fuel
  induction fuel with
  | zero =>
    intro fuel2 s hs _
    have hnil : s = [] := List.eq_nil_of_length_eq_zero (Nat.le_zero.mp hs)
    subst hnil
    cases fuel2 <;> rfl
  | succ fuel ih =>
    intro fuel2 s hs hs2
    cases s with
    | nil => cases fuel2 <;> rfl
    | cons c rest =>
      cases fuel2 with
      | zero => exact absurd hs2 (by simp)
      | succ fuel3 =>
        simp only [replaceAllF]
        by_cases hm : pat ≠ [] ∧ pat.isPrefixOf (c :: rest)
        · rw [if_pos hm, if_pos hm]
          congr 1
          have hp : 0 < pat.length := List.length_pos.mpr hm.1
          apply ih
          · simp only [List.length_drop, List.length_cons]
            simp only [List.length_cons] at hs
            omega
          · simp only [List.length_drop, List.length_cons]
            simp only [List.length_cons] at hs2
            omega
        · rw [if_neg hm, if_neg hm]
          congr 1
          apply ih
          · simp only [List.length_cons] at hs
            omega
          · simp only [List.length_cons] at hs2
            omega

/-- The sentinel the splitter substitutes for a protected period. -/
def sentinel : List Char := strL "<<<DOT>>>"

/-- The protected abbreviation list, in source order. -/
def abbreviations : List (List Char) :=
  [strL "dic", strL "Dic", strL "ene", strL "feb", strL "mar",
   strL "abr", strL "may", strL "jun", strL "jul", strL "ago",
   strL "sep", strL "oct", strL "nov", strL "Sr", strL "Sra",
   strL "Dr", strL "Dra"]

/-- The abbreviation-protection phase of `_split_into_sentences`:
for each abbreviation `a`, in order, replace `"a."` by `"a<<<DOT>>>"`. -/
def protectText (text : List Char) : List Char :=
  abbreviations.foldl
    (fun acc a => replaceAll (a ++ ['.']) (a ++ sentinel) acc) text

/-- Sentinel restoration applied to one fragment. -/
def restoreFrag (s : List Char) : List Char :=
  replaceAll sentinel ['.'] s

/-- Is `c` one of the terminal punctuation characters `[.!?]`
(the look-behind of the first two split alternatives)? -/
def isTermPunct (c : Char) : Bool :=
  c == '.' || c == '!' || c == '?'

/-- Length taken by the separator regex
`(?<=[.!?])\s+(?=[A-Z])|(?<=[.!?])\s*\n+|\n\n+` when it matches at the
head of `l` (with `prev` the character just before, if any), following
Python's alternative order and backtracking:
the first alternative consumes the maximal whitespace run when an
upper-case letter follows it; the second consumes the whitespace run
up to and including its last newline; the third consumes a maximal
run of at least two newlines.  `none` when no alternative matches. -/
def sepLen (prev : Option Char) (l : List Char) : Option Nat :=
  let run := l.takeWhile isPyWs
  let punctBefore := match prev with
    | some c => isTermPunct c
    | none => false
  if punctBefore && run.length != 0 && isUpperAZ ((l.drop run.length).headD ' ') then
    some run.length
  else if punctBefore && run.contains '\n' then
    -- up to and including the last newline of the whitespace run
    some (run.length - (run.reverse.takeWhile (fun c => c != '\n')).length)
  else
    let nlRun := l.takeWhile (· == '\n')
    if 2 ≤ nlRun.length then some nlRun.length else none

/-- The scanning loop of `re.split` for the sentence-endings regex,
with an explicit fuel (never exhausted when started at the length of
the scanned list): `acc` holds the current fragment (reversed), the
`prev` argument is the character at the position just before the
remaining text. -/
def splitScanF : Nat → Option Char → List Char → List Char → List (List Char)
  | _, _, [], acc => [acc.reverse]
  | 0, _, c :: rest, acc => [acc.reverse ++ c :: rest]
  | fuel + 1, prev, c :: rest, acc =>
    match sepLen prev (c :: rest) with
    | some n =>
      if n = 0 then
        splitScanF fuel (some c) rest (c :: acc)
      else
        acc.reverse ::
          splitScanF fuel (((c :: rest).take n).getLast?) ((c :: rest).drop n) []
    | none => splitScanF fuel (some c) rest (c :: acc)

/-- The scanning loop of `re.split` for the sentence-endings regex. -/
def splitScan (prev : Option Char) (cur : List Char) (acc : List Char) :
    List (List Char) :=
  splitScanF cur.length prev cur acc

theorem splitScanF_fuel :
    ∀ (fuel fuel2 : Nat) (prev : Option Char) (cur acc : List Char),
      cur.length ≤ fuel → cur.length ≤ fuel2 →
      splitScanF fuel prev cur acc = splitScanF fuel2 prev cur acc := by
  intro fuel
  induction fuel with
  | zero =>
    intro fuel2 prev cur acc hs _
    have hnil : cur = [] := List.eq_nil_of_length_eq_zero (Nat.le_zero.mp hs)
    subst hnil
    cases fuel2 <;> rfl
  | succ fuel ih =>
    intro fuel2 prev cur acc hs hs2
    cases cur with
    | nil => cases fuel2 <;> rfl
    | cons c rest =>
      cases fuel2 with
      | zero => exact absurd hs2 (by simp)
      | succ fuel3 =>
        simp only [List.length_cons] at hs hs2
        cases hsep : sepLen prev (c :: rest) with
        | none =>
          simp only [splitScanF, hsep]
          exact ih fuel3 (some c) rest (c :: acc) (by omega) (by omega)
        | some n =>
          simp only [splitScanF, hsep]
          by_cases hn : n = 0
          · rw [if_pos hn, if_pos hn]
            exact ih fuel3 (some c) rest (c :: acc) (by omega) (by omega)
          · rw [if_neg hn, if_neg hn]
            congr 1
            apply ih
            · simp only [List.length_drop, List.length_cons]
              omega
            · simp only [List.length_drop, List.length_cons]
              omega

/-- `_split_into_sentences`: protect the abbreviations, split on the
sentence-endings regex, keep the fragments whose `strip()` is
non-empty, and restore the sentinel in each kept fragment.
The fragments themselves are kept verbatim (they are not stripped). -/
def split_into_sentences (text : List Char) : List (List Char) :=
  ((splitScan none (protectText text) []).filter
    (fun s => pyStrip s ≠ [])).map restoreFrag

/-!
### The pattern-matching model

A `Matcher` maps the full sentence and a start position to the list of
candidate end positions, in the preference order of Python's
backtracking `re` engine; the engine's match at a position is the head
of that list.  Sequencing concatenates candidate explorations
depth-first (`flatMap`), alternation appends in declared order, a lazy
bounded repetition of `.` (with `re.DOTALL`) lists the shortest
extents first, greedy `+`/`?` list the longest extents first. -/

def Matcher : Type := List Char → Nat → List Nat

/-- The characters starting at `i`, compared case-insensitively with a
lower-case literal. -/
abbrev litAtP (pat s : List Char) (i : Nat) : Prop :=
  ((s.drop i).take pat.length).map lowerCh = pat

/-- Case-insensitive literal (`pat` is given lower-case). -/
def mLit (pat : List Char) : Matcher := fun s i =>
  if litAtP pat s i then [i + pat.length] else []

/-- Does the character at `i` belong to the class `p`? -/
def clsHeadB (p : Char → Bool) (s : List Char) (i : Nat) : Bool :=
  match (s.drop i).head? with
  | some c => p c
  | none => false

/-- Single character of a class. -/
def mCls (p : Char → Bool) : Matcher := fun s i =>
  if clsHeadB p s i then [i + 1] else []

/-- Exactly `n` characters of a class (`\d{n}`). -/
def mExact (p : Char → Bool) (n : Nat) : Matcher := fun s i =>
  let seg := (s.drop i).take n
  if seg.length = n ∧ seg.all p then [i + n] else []

/-- Empty match. -/
def mEps : Matcher := fun _ i => [i]

def mSeq (a b : Matcher) : Matcher := fun s i => (a s i).flatMap (b s)

def mAlt (a b : Matcher) : Matcher := fun s i => a s i ++ b s i

def mSeqs (l : List Matcher) : Matcher := l.foldr mSeq mEps

def mAlts (l : List Matcher) : Matcher := fun s i => l.flatMap (fun m => m s i)

/-- Greedy option `x?`: with `x` first. -/
def mOpt (a : Matcher) : Matcher := mAlt a mEps

/-- Lazy bounded filler `.{0,hi}?` under `re.DOTALL`: any characters,
shortest first. -/
def mLazyDot (hi : Nat) : Matcher := fun s i =>
  ((List.range (hi + 1)).map (i + ·)).filter (· ≤ s.length)

/-- Greedy `c+` for a class: maximal run first, then shorter. -/
def mPlusCls (p : Char → Bool) : Matcher := fun s i =>
  let m := ((s.drop i).takeWhile p).length
  (List.range m).map (fun k => i + m - k)

/-- Is position `i` a word boundary (`\b`)?  The position sits between
a word character and a non-word character (start and end of the text
count as non-word). -/
def boundaryB (s : List Char) (i : Nat) : Bool :=
  let wl := match s.get? (i - 1) with
    | some c => i ≠ 0 && isWordCh c
    | none => false
  let wr := match s.get? i with
    | some c => isWordCh c
    | none => false
  wl != wr

/-- Word boundary `\b` (zero-width). -/
def mWB : Matcher := fun s i =>
  if boundaryB s i then [i] else []

/-- End position of the Python match of `m` at position `i`, if any. -/
def matchAt (m : Matcher) (s : List Char) (i : Nat) : Option Nat :=
  (m s i).head?

/-- `re.finditer` scanning: leftmost matches, restarting after each
match's end (or one position further on a zero-width match).  The
explicit fuel (one more than the number of remaining scan positions)
makes the definition structurally recursive and kernel-evaluable. -/
def finditerF (m : Matcher) (s : List Char) : Nat → Nat → List (Nat × Nat)
  | 0, _ => []
  | fuel + 1, i =>
    if s.length < i then []
    else
      match matchAt m s i with
      | none =>
        if i = s.length then [] else finditerF m s fuel (i + 1)
      | some e =>
        (i, e) :: (if i < e then finditerF m s fuel e else
          if i = s.length then [] else finditerF m s fuel (i + 1))

def finditer (m : Matcher) (s : List Char) : List (Nat × Nat) :=
  finditerF m s (s.length + 1) 0

/-!
### The fifteen compiled patterns of `_build_patterns`, in source order
-/

/-- `(?:diciembre|december)` -/
def gMonthFull : Matcher := mAlt (mLit (strL "diciembre")) (mLit (strL "december"))

/-- `(?:treinta\s+y\s+uno|thirty[\s\-]?first)` -/
def gThirtyOne : Matcher :=
  mAlt
    (mSeqs [mLit (strL "treinta"), mPlusCls isPyWs, mLit (strL "y"),
            mPlusCls isPyWs, mLit (strL "uno")])
    (mSeqs [mLit (strL "thirty"),
            mOpt (mCls (fun c => isPyWs c || c == '-')), mLit (strL "first")])

/-- `(?:dic\.?|dec\.?)` -/
def gMonthAbbr : Matcher :=
  mAlt (mSeq (mLit (strL "dic")) (mOpt (mCls (· == '.'))))
       (mSeq (mLit (strL "dec")) (mOpt (mCls (· == '.'))))

/-- `(?:diciembre|december|dic\.?|dec\.?)` -/
def gMonthAny : Matcher :=
  mAlts [mLit (strL "diciembre"), mLit (strL "december"),
         mSeq (mLit (strL "dic")) (mOpt (mCls (· == '.'))),
         mSeq (mLit (strL "dec")) (mOpt (mCls (· == '.')))]

/-- `(?:19|20)\d{2}` -/
def gYear4 : Matcher :=
  mSeq (mAlt (mLit (strL "19")) (mLit (strL "20"))) (mExact Char.isDigit 2)

/-- `(?:\d{2}|\d{4})` -/
def gYear24 : Matcher :=
  mAlt (mExact Char.isDigit 2) (mExact Char.isDigit 4)

/-- `\b31\b.{0,25}?\b(?:diciembre|december)\b` -/
def p_nc1 : Matcher :=
  mSeqs [mWB, mLit (strL "31"), mWB, mLazyDot 25, mWB, gMonthFull, mWB]

/-- `\b(?:diciembre|december)\b.{0,25}?\b31\b` -/
def p_nc2 : Matcher :=
  mSeqs [mWB, gMonthFull, mWB, mLazyDot 25, mWB, mLit (strL "31"), mWB]

/-- `\b(?:treinta\s+y\s+uno|thirty[\s\-]?first)\b.{0,25}?\b(?:diciembre|december)\b` -/
def p_nc3 : Matcher :=
  mSeqs [mWB, gThirtyOne, mWB, mLazyDot 25, mWB, gMonthFull, mWB]

/-- `\b(?:diciembre|december)\b.{0,25}?\b(?:treinta\s+y\s+uno|thirty[\s\-]?first)\b` -/
def p_nc4 : Matcher :=
  mSeqs [mWB, gMonthFull, mWB, mLazyDot 25, mWB, gThirtyOne, mWB]

/-- `\b31\b.{0,15}?\b(?:dic\.?|dec\.?)\b` -/
def p_na1 : Matcher :=
  mSeqs [mWB, mLit (strL "31"), mWB, mLazyDot 15, mWB, gMonthAbbr, mWB]

/-- `\b(?:dic\.?|dec\.?)\b.{0,15}?\b31\b` -/
def p_na2 : Matcher :=
  mSeqs [mWB, gMonthAbbr, mWB, mLazyDot 15, mWB, mLit (strL "31"), mWB]

/-- `\b31[/\-.\s]12\b` -/
def p_num1 : Matcher :=
  mSeqs [mWB, mLit (strL "31"), mCls isSepCh, mLit (strL "12"), mWB]

/-- `\b12[/\-.\s]31\b` -/
def p_num2 : Matcher :=
  mSeqs [mWB, mLit (strL "12"), mCls isSepCh, mLit (strL "31"), mWB]

/-- `\b31\b.{0,30}?\b(?:diciembre|december|dic\.?|dec\.?)\b.{0,20}?\b(?:19|20)\d{2}\b` -/
def p_ca1 : Matcher :=
  mSeqs [mWB, mLit (strL "31"), mWB, mLazyDot 30, mWB, gMonthAny, mWB,
         mLazyDot 20, mWB, gYear4, mWB]

/-- `\b(?:diciembre|december|dic\.?|dec\.?)\b.{0,15}?\b31\b.{0,15}?\b(?:19|20)\d{2}\b` -/
def p_ca2 : Matcher :=
  mSeqs [mWB, gMonthAny, mWB, mLazyDot 15, mWB, mLit (strL "31"), mWB,
         mLazyDot 15, mWB, gYear4, mWB]

/-- `\b31[/\-.\s]12[/\-.\s](?:\d{2}|\d{4})\b` -/
def p_ca3 : Matcher :=
  mSeqs [mWB, mLit (strL "31"), mCls isSepCh, mLit (strL "12"),
         mCls isSepCh, gYear24, mWB]

/-- `\b12[/\-.\s]31[/\-.\s](?:\d{2}|\d{4})\b` -/
def p_ca4 : Matcher :=
  mSeqs [mWB, mLit (strL "12"), mCls isSepCh, mLit (strL "31"),
         mCls isSepCh, gYear24, mWB]

/-- `\b31\s+de\s+diciembre\b` -/
def p_pe1 : Matcher :=
  mSeqs [mWB, mLit (strL "31"), mPlusCls isPyWs, mLit (strL "de"),
         mPlusCls isPyWs, mLit (strL "diciembre"), mWB]

/-- `\b31\s+(?:de\s+)?diciembre\b` -/
def p_pe2 : Matcher :=
  mSeqs [mWB, mLit (strL "31"), mPlusCls isPyWs,
         mOpt (mSeq (mLit (strL "de")) (mPlusCls isPyWs)),
         mLit (strL "diciembre"), mWB]

/-- `\bdiciembre\s+31\b` -/
def p_pe3 : Matcher :=
  mSeqs [mWB, mLit (strL "diciembre"), mPlusCls isPyWs, mLit (strL "31"), mWB]

/-- The catalog: category names with their ordered pattern lists,
exactly in the dictionary-declaration order of `_build_patterns`. -/
def patternCatalog : List (List Char × List Matcher) :=
  [(strL "nombre_completo_flexible", [p_nc1, p_nc2, p_nc3, p_nc4]),
   (strL "nombre_abreviado_flexible", [p_na1, p_na2]),
   (strL "numerico", [p_num1, p_num2]),
   (strL "con_año", [p_ca1, p_ca2, p_ca3, p_ca4]),
   (strL "patron_estricto", [p_pe1, p_pe2, p_pe3])]

/-- A raw match record: `match.group()`, its category, and the
half-open span returned by `match.span()`. -/
structure RawMatch where
  text : List Char
  category : List Char
  startPos : Nat
  endPos : Nat
deriving DecidableEq, Repr

/-- The span key used by the deduplication loop. -/
def RawMatch.span (m : RawMatch) : Nat × Nat := (m.startPos, m.endPos)

/-- The raw match list collected by the three nested loops of
`_find_matches_in_sentence`, before deduplication: categories in
catalog order, patterns in declared order, occurrences in `finditer`
order. -/
def rawMatches (sentence : List Char) : List RawMatch :=
  patternCatalog.flatMap (fun cp =>
    cp.2.flatMap (fun p =>
      (finditer p sentence).map (fun ab =>
        ⟨(sentence.drop ab.1).take (ab.2 - ab.1), cp.1, ab.1, ab.2⟩)))

/-- The deduplication loop: keep a raw match only when its span key
has not been seen yet (`seen` models the `seen_positions` set). -/
def dedupBySpan : List RawMatch → List (Nat × Nat) → List RawMatch
  | [], _ => []
  | m :: rest, seen =>
    if m.span ∈ seen then dedupBySpan rest seen
    else m :: dedupBySpan rest (m.span :: seen)

/-- `_find_matches_in_sentence`: raw collection then deduplication;
the returned dictionaries keep only the text and the category. -/
def find_matches_in_sentence (sentence : List Char) :
    List (List Char × List Char) :=
  (dedupBySpan (rawMatches sentence) []).map (fun m => (m.text, m.category))

/-- One entry of the result list of `extract_sentences_with_date`. -/
structure SentenceResult where
  sentence : List Char
  matchList : List (List Char × List Char)
deriving DecidableEq, Repr

/-- The accumulation loop of `extract_sentences_with_date`: sentences
with an empty match list are skipped, the kept ones are stripped for
display. -/
def collectResults : List (List Char) → List SentenceResult
  | [] => []
  | s :: rest =>
    let ms := find_matches_in_sentence s
    if ms = [] then collectResults rest
    else ⟨pyStrip s, ms⟩ :: collectResults rest

/-- `extract_sentences_with_date`. -/
def extract_sentences_with_date (text : List Char) : List SentenceResult :=
  collectResults (split_into_sentences text)

/-- The structured result of `process_json_document`. -/
structure ExtractionResult where
  total_sentences_found : Nat
  sentences : List SentenceResult
deriving DecidableEq, Repr

/-- The result dictionary built at the end of `process_json_document`. -/
def mk_extraction_result (text : List Char) : ExtractionResult :=
  ⟨(extract_sentences_with_date text).length, extract_sentences_with_date text⟩

/-!
### The document representation and `_extract_text_from_json`

JSON-like values as produced by `json.load`.  Numbers are modelled by
integers (floating point is out of scope); object fields keep the
document's insertion order. -/

inductive JValue where
  | null : JValue
  | bool : Bool → JValue
  | num : Int → JValue
  | str : List Char → JValue
  | arr : List JValue → JValue
  | obj : List (List Char × JValue) → JValue

/-- Decimal digits of a natural number. -/
def natDigits (n : Nat) : List Char := Nat.toDigits 10 n

/-- Python `repr` of an integer. -/
def intRepr (n : Int) : List Char :=
  if n < 0 then '-' :: natDigits n.natAbs else natDigits n.natAbs

/-- Python `repr(s)` for a string, simplified to a single-quoted
rendering (the documents considered contain no quote or backslash
characters, so Python's quote-selection and escaping do not differ). -/
def strQuote (s : List Char) : List Char :=
  Char.ofNat 39 :: s ++ [Char.ofNat 39]

mutual

/-- Python `repr` of a JSON-like value. -/
def pyRepr : JValue → List Char
  | .null => strL "None"
  | .bool true => strL "True"
  | .bool false => strL "False"
  | .num n => intRepr n
  | .str s => strQuote s
  | .arr xs => '[' :: pyReprArr xs ++ [']']
  | .obj fs => Char.ofNat 123 :: pyReprObj fs ++ [Char.ofNat 125]

def pyReprArr : List JValue → List Char
  | [] => []
  | [x] => pyRepr x
  | x :: rest => pyRepr x ++ strL ", " ++ pyReprArr rest

def pyReprObj : List (List Char × JValue) → List Char
  | [] => []
  | [kv] => strQuote kv.1 ++ strL ": " ++ pyRepr kv.2
  | kv :: rest => strQuote kv.1 ++ strL ": " ++ pyRepr kv.2 ++ strL ", " ++ pyReprObj rest

end

/-- Python `str`: identity on strings, `repr` rendering otherwise. -/
def pyStr : JValue → List Char
  | .str s => s
  | v => pyRepr v

/-- Python `key in v`: key membership for a mapping, element equality
for a sequence, substring test for a string; a `TypeError` otherwise. -/
def pyContains (key : List Char) : JValue → Except Unit Bool
  | .obj fs => .ok (fs.any (fun kv => kv.1 = key))
  | .arr xs => .ok (xs.any (fun v => match v with
      | JValue.str s => s = key
      | _ => false))
  | .str s => .ok (key <:+: s)
  | _ => .error ()

/-- Python `v[key]` for a string key: mapping lookup (`KeyError` when
absent); a `TypeError` on any non-mapping. -/
def pyGetItem (key : List Char) : JValue → Except Unit JValue
  | .obj fs =>
    match fs.lookup key with
    | some v => .ok v
    | none => .error ()
  | _ => .error ()

/-- Python `for x in v`: the elements of a sequence, the one-character
strings of a string, the keys of a mapping; a `TypeError` otherwise. -/
def pyIterElems : JValue → Except Unit (List JValue)
  | .arr xs => .ok xs
  | .str s => .ok (s.map (fun c => JValue.str [c]))
  | .obj fs => .ok (fs.map (fun kv => JValue.str kv.1))
  | _ => .error ()

/-- `"\n".join(parts)`: `TypeError` when some part is not a string. -/
def pyJoinNl (parts : List JValue) : Except Unit (List Char) := do
  let strs ← parts.mapM (fun v => match v with
    | JValue.str s => Except.ok s
    | _ => Except.error ())
  pure (List.intercalate ['\n'] strs)

/-- The `pages` loop: a mapping contributes its `"text"` field when
present, a plain string contributes itself, anything else is skipped. -/
def collectPages (elems : List JValue) : List JValue :=
  elems.filterMap (fun p => match p with
    | .obj fs => fs.lookup (strL "text")
    | .str s => some (.str s)
    | _ => none)

/-- The paragraphs comprehension `[p["text"] for p in paragraphs if
"text" in p]`; the membership test or the indexing may raise. -/
def collectParas : List JValue → Except Unit (List JValue)
  | [] => .ok []
  | p :: rest => do
    let b ← pyContains (strL "text") p
    if b then do
      let t ← pyGetItem (strL "text") p
      let tail ← collectParas rest
      pure (t :: tail)
    else
      collectParas rest

/-- The generic fallback collection over the top-level items: keep
string values, and inside a top-level sequence keep string elements
and the `"text"` field of mapping elements; one level only. -/
def fallbackParts (fs : List (List Char × JValue)) : List JValue :=
  fs.flatMap (fun kv => match kv.2 with
    | .str s => [JValue.str s]
    | .arr xs => xs.filterMap (fun item => match item with
        | .str s => some (JValue.str s)
        | .obj ifs => ifs.lookup (strL "text")
        | _ => none)
    | _ => [])

/-- The body of the `try` block of `_extract_text_from_json`: shape
dispatch in source order; failures of the Python operations surface as
`Except.error`. -/
def extract_core (j : JValue) : Except Unit JValue := do
  let hasPages ← pyContains (strL "pages") j
  if hasPages then do
    let pages ← pyGetItem (strL "pages") j
    let elems ← pyIterElems pages
    let s ← pyJoinNl (collectPages elems)
    pure (.str s)
  else do
    let hasDoc ← pyContains (strL "document") j
    let docOk ← if hasDoc then do
        let d ← pyGetItem (strL "document") j
        pyContains (strL "paragraphs") d
      else pure false
    if docOk then do
      let d ← pyGetItem (strL "document") j
      let paras ← pyGetItem (strL "paragraphs") d
      let elems ← pyIterElems paras
      let parts ← collectParas elems
      let s ← pyJoinNl parts
      pure (.str s)
    else do
      let hasText ← pyContains (strL "text") j
      if hasText then pyGetItem (strL "text") j
      else do
        let hasContent ← pyContains (strL "content") j
        if hasContent then pyGetItem (strL "content") j
        else
          match j with
          | .obj fs => do
            let s ← pyJoinNl (fallbackParts fs)
            pure (.str s)
          | _ => .error ()

/-- `_extract_text_from_json`: the `try` body with its `except` arm,
which falls back to `str(json_data)`.  Total by construction: text
resolution itself never raises. -/
def extract_text_from_json (j : JValue) : JValue :=
  match extract_core j with
  | .ok v => v
  | .error _ => .str (pyStr j)

/-- `process_json_document`: resolve the text, then run the sentence
extraction.  When the resolved value is not a string (possible through
the verbatim `text`/`content` branches), Python raises an
`AttributeError` inside `_split_into_sentences` at
`protected_text.replace`; this propagating exception is the `error`
case. -/
def process_json_document (j : JValue) : Except Unit ExtractionResult :=
  match extract_text_from_json j with
  | .str s => .ok (mk_extraction_result s)
  | _ => .error ()

/-!
### Generic list lemmas used below
-/

theorem isP_true_iff {l1 l2 : List Char} : l1.isPrefixOf l2 = true ↔ l1 <+: l2 :=
  List.isPrefixOf_iff_prefix

theorem infixCh_of_pref {α : Type} {t l : List α} (h : t <+: l) : t <:+: l := by
  obtain ⟨w, hw⟩ := h
  exact ⟨[], w, by simpa using hw⟩

theorem infixCh_of_suff {α : Type} {t l : List α} (h : t <:+ l) : t <:+: l := by
  obtain ⟨w, hw⟩ := h
  exact ⟨w, [], by simpa using hw⟩

theorem mem_of_infixCh {α : Type} {t l : List α} {a : α} (h : t <:+: l) (ha : a ∈ t) :
    a ∈ l := by
  obtain ⟨u, v, rfl⟩ := h
  exact List.mem_append.mpr (Or.inl (List.mem_append.mpr (Or.inr ha)))

theorem infixCh_cons_extend {α : Type} {t l : List α} {a : α} (h : t <:+: l) :
    t <:+: a :: l := by
  obtain ⟨u, v, rfl⟩ := h
  exact ⟨a :: u, v, by simp⟩

theorem suff_cons_extend {α : Type} {t l : List α} {a : α} (h : t <:+ l) :
    t <:+ a :: l := by
  obtain ⟨w, rfl⟩ := h
  exact ⟨a :: w, by simp⟩

theorem infixCh_append_left {α : Type} {t A : List α} (B : List α) (h : t <:+: A) :
    t <:+: A ++ B := by
  obtain ⟨u, v, rfl⟩ := h
  exact ⟨u, v ++ B, by simp⟩

theorem infixCh_append_right {α : Type} {t B : List α} (A : List α) (h : t <:+: B) :
    t <:+: A ++ B := by
  obtain ⟨u, v, rfl⟩ := h
  exact ⟨A ++ u, v, by simp⟩

theorem pref_singleton_eq {α : Type} {x : List α} {c : α} (h : x <+: [c]) (hx : x ≠ []) :
    x = [c] := by
  obtain ⟨w, hw⟩ := h
  cases x with
  | nil => exact absurd rfl hx
  | cons a x' =>
    rw [List.cons_append] at hw
    injection hw with h1 h2
    have hx' : x' = [] := (List.append_eq_nil.mp h2).1
    simp [h1, hx']

theorem suff_concat_decomp {α : Type} {x u : List α} {c : α}
    (h : x <:+ u ++ [c]) (hx : x ≠ []) : ∃ y, x = y ++ [c] ∧ y <:+ u := by
  obtain ⟨w, hw⟩ := h
  rcases List.append_eq_append_iff.mp hw with ⟨a, ha1, ha2⟩ | ⟨d, hd1, hd2⟩
  · exact ⟨a, ha2, ⟨w, ha1.symm⟩⟩
  · have hlen := congrArg List.length hd2
    simp at hlen
    have hxlen : x.length ≠ 0 := fun h0 => hx (List.eq_nil_of_length_eq_zero h0)
    have hd : d = [] := List.eq_nil_of_length_eq_zero (by omega)
    subst hd
    simp at hd2
    exact ⟨[], by simp [← hd2], ⟨u, by simp⟩⟩

theorem pref_append_cases {α : Type} {t A B : List α} (h : t <+: A ++ B) :
    t <+: A ∨ ∃ t2, t = A ++ t2 ∧ t2 <+: B := by
  obtain ⟨w, hw⟩ := h
  rcases List.append_eq_append_iff.mp hw with ⟨a, ha1, ha2⟩ | ⟨d, hd1, hd2⟩
  · left; exact ⟨a, ha1.symm⟩
  · right; exact ⟨d, hd1, ⟨w, hd2.symm⟩⟩

theorem infixCh_cons_cases {α : Type} {t l : List α} {a : α} (h : t <:+: a :: l) :
    t <+: (a :: l) ∨ t <:+: l := by
  obtain ⟨u, v, huv⟩ := h
  cases u with
  | nil => left; exact ⟨v, by simpa using huv⟩
  | cons b u' =>
    right
    rw [List.cons_append, List.cons_append] at huv
    injection huv with h1 h2
    exact ⟨u', v, h2⟩

theorem infixCh_append_cases {α : Type} {t A B : List α} (h : t <:+: A ++ B) :
    t <:+: A ∨ t <:+: B ∨
      ∃ t1 t2, t = t1 ++ t2 ∧ t1 ≠ [] ∧ t2 ≠ [] ∧ t1 <:+ A ∧ t2 <+: B := by
  induction A generalizing t with
  | nil => exact Or.inr (Or.inl (by simpa using h))
  | cons a A' ih =>
    rw [List.cons_append] at h
    rcases infixCh_cons_cases h with hpre | hrest
    · rw [← List.cons_append] at hpre
      rcases pref_append_cases hpre with h1 | ⟨t2, ht, ht2⟩
      · exact Or.inl (infixCh_of_pref h1)
      · by_cases h2 : t2 = []
        · subst h2
          rw [List.append_nil] at ht
          subst ht
          exact Or.inl (infixCh_of_pref List.prefix_rfl)
        · exact Or.inr (Or.inr ⟨a :: A', t2, ht, by simp, h2, List.suffix_refl _, ht2⟩)
    · rcases ih hrest with h1 | h2 | ⟨t1, t2, ht, h1ne, h2ne, h1s, h2p⟩
      · exact Or.inl (infixCh_cons_extend h1)
      · exact Or.inr (Or.inl h2)
      · exact Or.inr (Or.inr ⟨t1, t2, ht, h1ne, h2ne, suff_cons_extend h1s, h2p⟩)

theorem suff_last_mem {α : Type} {x A : List α} {c : α} (h : x <:+ A ++ [c])
    (hx : x ≠ []) : c ∈ x := by
  obtain ⟨y, hy, _⟩ := suff_concat_decomp h hx
  rw [hy]
  simp

/-!
### Unfolding equations and infix-freedom lemmas for `replaceAll`
-/

theorem replaceAll_nil (pat rep : List Char) : replaceAll pat rep [] = [] := rfl

theorem replaceAll_cons_pos {pat : List Char} (rep : List Char) {c : Char}
    {rest : List Char} (h : pat ≠ [] ∧ pat.isPrefixOf (c :: rest)) :
    replaceAll pat rep (c :: rest) =
      rep ++ replaceAll pat rep ((c :: rest).drop pat.length) := by
  unfold replaceAll
  simp only [List.length_cons, replaceAllF, if_pos h]
  congr 1
  apply replaceAllF_fuel
  · have hp : 0 < pat.length := List.length_pos.mpr h.1
    simp only [List.length_drop, List.length_cons]
    omega
  · exact le_refl _

theorem replaceAll_cons_neg {pat : List Char} (rep : List Char) {c : Char}
    {rest : List Char} (h : ¬ (pat ≠ [] ∧ pat.isPrefixOf (c :: rest))) :
    replaceAll pat rep (c :: rest) = c :: replaceAll pat rep rest := by
  unfold replaceAll
  simp only [List.length_cons, replaceAllF, if_neg h]

/-- After replacing every occurrence of `t0 ++ [tl]` by `r0 ++ [rl]`,
no occurrence of `t0 ++ [tl]` remains, nor can one be formed across
the boundary of a pending prefix `u` satisfying the stated invariant,
provided the last character of the pattern does not occur in the
replacement and the last character of the replacement does not occur
in the pattern. -/
theorem replaceAll_self_free_aux (t0 r0 : List Char) (tl rl : Char)
    (ht0 : t0 ≠ []) (h3 : tl ∉ r0 ++ [rl]) (h4 : rl ∉ t0 ++ [tl]) :
    ∀ (n : Nat) (s u : List Char), s.length ≤ n →
      (¬ (t0 ++ [tl]) <:+: u) →
      (∀ k, 0 < k → k < (t0 ++ [tl]).length → (t0 ++ [tl]).take k <:+ u →
          ¬ (t0 ++ [tl]).drop k <+: s) →
      ¬ (t0 ++ [tl]) <:+: (u ++ replaceAll (t0 ++ [tl]) (r0 ++ [rl]) s) := by
  intro n
  induction n with
  | zero =>
    intro s u hle hu _
    have hs : s = [] := List.eq_nil_of_length_eq_zero (Nat.le_zero.mp hle)
    subst hs
    rw [replaceAll_nil, List.append_nil]
    exact hu
  | succ n IH =>
    intro s u hle hu hk
    cases s with
    | nil =>
      rw [replaceAll_nil, List.append_nil]
      exact hu
    | cons c rest =>
      have hle' : rest.length + 1 ≤ n + 1 := by simpa using hle
      have ht0len : 0 < t0.length := List.length_pos.mpr ht0
      by_cases hm : (t0 ++ [tl]) ≠ [] ∧ (t0 ++ [tl]).isPrefixOf (c :: rest)
      · rw [replaceAll_cons_pos _ hm, ← List.append_assoc]
        apply IH ((c :: rest).drop (t0 ++ [tl]).length) (u ++ (r0 ++ [rl]))
        · simp only [List.length_drop, List.length_cons, List.length_append,
            List.length_singleton]
          omega
        · intro hinf
          rcases infixCh_append_cases hinf with h1 | h2 | ⟨t1, t2, ht, _, h2ne, _, h2p⟩
          · exact hu h1
          · exact h3 (mem_of_infixCh h2 (List.mem_append.mpr (Or.inr (by simp))))
          · have ht2suf : t2 <:+ t0 ++ [tl] := ⟨t1, ht.symm⟩
            have htl2 : tl ∈ t2 := suff_last_mem ht2suf h2ne
            obtain ⟨w, hw⟩ := h2p
            exact h3 (hw ▸ List.mem_append.mpr (Or.inl htl2))
        · intro k hk0 _ hsuf
          intro _
          rw [← List.append_assoc] at hsuf
          have hne : (t0 ++ [tl]).take k ≠ [] := by
            rw [Ne, List.take_eq_nil_iff]
            push_neg
            exact ⟨by omega, by simp⟩
          obtain ⟨y, hy, _⟩ := suff_concat_decomp hsuf hne
          have hmem : rl ∈ (t0 ++ [tl]).take k := by
            rw [hy]; simp
          exact h4 (List.mem_of_mem_take hmem)
      · rw [replaceAll_cons_neg _ hm]
        have hre : u ++ (c :: replaceAll (t0 ++ [tl]) (r0 ++ [rl]) rest) =
            (u ++ [c]) ++ replaceAll (t0 ++ [tl]) (r0 ++ [rl]) rest := by simp
        rw [hre]
        apply IH rest (u ++ [c]) (by omega)
        · intro hinf
          rcases infixCh_append_cases hinf with h1 | h2 | ⟨t1, t2, ht, _, h2ne, h1s, h2p⟩
          · exact hu h1
          · obtain ⟨a1, a2, ha⟩ := h2
            have hlen := congrArg List.length ha
            simp at hlen
            omega
          · have ht2 : t2 = [c] := pref_singleton_eq h2p h2ne
            subst ht2
            obtain ⟨he1, he2⟩ := List.append_inj' ht.symm (by simp)
            have hcl : tl = c := by
              injection he2 with hinj _
              exact hinj.symm
            have htake : (t0 ++ [tl]).take t0.length = t0 := List.take_left t0 [tl]
            have hsuf0 : (t0 ++ [tl]).take t0.length <:+ u := by
              rw [htake]
              exact he1 ▸ h1s
            have hdrop0 : (t0 ++ [tl]).drop t0.length <+: (c :: rest) := by
              rw [List.drop_left t0 [tl]]
              exact ⟨rest, by simp [hcl]⟩
            exact hk t0.length ht0len (by simp) hsuf0 hdrop0
        · intro k hk0 hklt hsuf
          intro hdrop
          have hne : (t0 ++ [tl]).take k ≠ [] := by
            rw [Ne, List.take_eq_nil_iff]
            push_neg
            exact ⟨by omega, by simp⟩
          obtain ⟨y, hy, hysuf⟩ := suff_concat_decomp hsuf hne
          have hylen : y.length = k - 1 := by
            have hlen1 : ((t0 ++ [tl]).take k).length = k := by
              rw [List.length_take]
              omega
            have hlen2 := congrArg List.length hy
            rw [hlen1] at hlen2
            simp at hlen2
            omega
          have h1 : (t0 ++ [tl]).take (k - 1) = y := by
            have e1 : (t0 ++ [tl]).take (k - 1) = ((t0 ++ [tl]).take k).take (k - 1) := by
              rw [List.take_take]
              congr 1
              omega
            rw [e1, hy, ← hylen, List.take_left y [c]]
          have hteq : t0 ++ [tl] = y ++ (c :: (t0 ++ [tl]).drop k) := by
            conv_lhs => rw [← List.take_append_drop k (t0 ++ [tl])]
            rw [hy]
            simp
          have h2 : (t0 ++ [tl]).drop (k - 1) = c :: (t0 ++ [tl]).drop k := by
            conv_lhs => rw [hteq, ← hylen]
            exact List.drop_left y _
          by_cases hk1 : k = 1
          · subst hk1
            have hpre : (t0 ++ [tl]) <+: (c :: rest) := by
              have hh : (t0 ++ [tl]).drop 0 <+: c :: rest := by
                rw [h2]
                obtain ⟨w, hw⟩ := hdrop
                exact ⟨w, by rw [List.cons_append, hw]⟩
              simpa using hh
            exact hm ⟨by simp, isP_true_iff.mpr hpre⟩
          · have hsuf2 : (t0 ++ [tl]).take (k - 1) <:+ u := by rw [h1]; exact hysuf
            have hdrop2 : (t0 ++ [tl]).drop (k - 1) <+: c :: rest := by
              rw [h2]
              obtain ⟨w, hw⟩ := hdrop
              exact ⟨w, by rw [List.cons_append, hw]⟩
            exact hk (k - 1) (by omega) (by omega) hsuf2 hdrop2

/-- No occurrence of the pattern `t0 ++ [tl]` remains after
`replaceAll` rewrites it everywhere (side conditions as above). -/
theorem replaceAll_self_free (t0 r0 : List Char) (tl rl : Char)
    (ht0 : t0 ≠ []) (h3 : tl ∉ r0 ++ [rl]) (h4 : rl ∉ t0 ++ [tl])
    (s : List Char) :
    ¬ (t0 ++ [tl]) <:+: replaceAll (t0 ++ [tl]) (r0 ++ [rl]) s := by
  have h := replaceAll_self_free_aux t0 r0 tl rl ht0 h3 h4 s.length s []
    (le_refl _)
    (by
      intro hinf
      obtain ⟨a1, a2, ha⟩ := hinf
      have hlen := congrArg List.length ha
      simp only [List.length_append, List.length_singleton, List.length_nil] at hlen
      omega)
    (by
      intro k hk0 _ hsuf
      intro _
      obtain ⟨w, hw⟩ := hsuf
      have h0 : (t0 ++ [tl]).take k = [] := (List.append_eq_nil.mp hw).2
      rw [List.take_eq_nil_iff] at h0
      rcases h0 with h0 | h0
      · omega
      · exact absurd (congrArg List.length h0) (by simp))
  simpa using h

/-- A `replaceAll` pass for a (possibly different) pattern `p` cannot
create an occurrence of `t0 ++ [tl]` when none was present, under the
same side conditions on the replacement `r0 ++ [rl]`. -/
theorem replaceAll_other_free_aux (p t0 r0 : List Char) (tl rl : Char)
    (ht0 : t0 ≠ []) (h3 : tl ∉ r0 ++ [rl]) (h4 : rl ∉ t0 ++ [tl]) :
    ∀ (n : Nat) (s u : List Char), s.length ≤ n →
      (¬ (t0 ++ [tl]) <:+: u) →
      (¬ (t0 ++ [tl]) <:+: s) →
      (∀ k, 0 < k → k < (t0 ++ [tl]).length → (t0 ++ [tl]).take k <:+ u →
          ¬ (t0 ++ [tl]).drop k <+: s) →
      ¬ (t0 ++ [tl]) <:+: (u ++ replaceAll p (r0 ++ [rl]) s) := by
  intro n
  induction n with
  | zero =>
    intro s u hle hu _ _
    have hs : s = [] := List.eq_nil_of_length_eq_zero (Nat.le_zero.mp hle)
    subst hs
    rw [replaceAll_nil, List.append_nil]
    exact hu
  | succ n IH =>
    intro s u hle hu hs hk
    cases s with
    | nil =>
      rw [replaceAll_nil, List.append_nil]
      exact hu
    | cons c rest =>
      have hle' : rest.length + 1 ≤ n + 1 := by simpa using hle
      have ht0len : 0 < t0.length := List.length_pos.mpr ht0
      by_cases hm : p ≠ [] ∧ p.isPrefixOf (c :: rest)
      · rw [replaceAll_cons_pos _ hm, ← List.append_assoc]
        have hplen : 0 < p.length := List.length_pos.mpr hm.1
        apply IH ((c :: rest).drop p.length) (u ++ (r0 ++ [rl]))
        · simp only [List.length_drop, List.length_cons]
          omega
        · intro hinf
          rcases infixCh_append_cases hinf with h1 | h2 | ⟨t1, t2, ht, _, h2ne, _, h2p⟩
          · exact hu h1
          · exact h3 (mem_of_infixCh h2 (List.mem_append.mpr (Or.inr (by simp))))
          · have ht2suf : t2 <:+ t0 ++ [tl] := ⟨t1, ht.symm⟩
            have htl2 : tl ∈ t2 := suff_last_mem ht2suf h2ne
            obtain ⟨w, hw⟩ := h2p
            exact h3 (hw ▸ List.mem_append.mpr (Or.inl htl2))
        · intro hinf
          exact hs (hinf.trans (infixCh_of_suff (List.drop_suffix p.length (c :: rest))))
        · intro k hk0 _ hsuf
          intro _
          rw [← List.append_assoc] at hsuf
          have hne : (t0 ++ [tl]).take k ≠ [] := by
            rw [Ne, List.take_eq_nil_iff]
            push_neg
            exact ⟨by omega, by simp⟩
          obtain ⟨y, hy, _⟩ := suff_concat_decomp hsuf hne
          have hmem : rl ∈ (t0 ++ [tl]).take k := by
            rw [hy]; simp
          exact h4 (List.mem_of_mem_take hmem)
      · rw [replaceAll_cons_neg _ hm]
        have hre : u ++ (c :: replaceAll p (r0 ++ [rl]) rest) =
            (u ++ [c]) ++ replaceAll p (r0 ++ [rl]) rest := by simp
        rw [hre]
        apply IH rest (u ++ [c]) (by omega)
        · intro hinf
          rcases infixCh_append_cases hinf with h1 | h2 | ⟨t1, t2, ht, _, h2ne, h1s, h2p⟩
          · exact hu h1
          · obtain ⟨a1, a2, ha⟩ := h2
            have hlen := congrArg List.length ha
            simp at hlen
            omega
          · have ht2 : t2 = [c] := pref_singleton_eq h2p h2ne
            subst ht2
            obtain ⟨he1, he2⟩ := List.append_inj' ht.symm (by simp)
            have hcl : tl = c := by
              injection he2 with hinj _
              exact hinj.symm
            have htake : (t0 ++ [tl]).take t0.length = t0 := List.take_left t0 [tl]
            have hsuf0 : (t0 ++ [tl]).take t0.length <:+ u := by
              rw [htake]
              exact he1 ▸ h1s
            have hdrop0 : (t0 ++ [tl]).drop t0.length <+: (c :: rest) := by
              rw [List.drop_left t0 [tl]]
              exact ⟨rest, by simp [hcl]⟩
            exact hk t0.length ht0len (by simp) hsuf0 hdrop0
        · intro hinf
          exact hs (infixCh_cons_extend hinf)
        · intro k hk0 hklt hsuf
          intro hdrop
          have hne : (t0 ++ [tl]).take k ≠ [] := by
            rw [Ne, List.take_eq_nil_iff]
            push_neg
            exact ⟨by omega, by simp⟩
          obtain ⟨y, hy, hysuf⟩ := suff_concat_decomp hsuf hne
          have hylen : y.length = k - 1 := by
            have hlen1 : ((t0 ++ [tl]).take k).length = k := by
              rw [List.length_take]
              omega
            have hlen2 := congrArg List.length hy
            rw [hlen1] at hlen2
            simp at hlen2
            omega
          have h1 : (t0 ++ [tl]).take (k - 1) = y := by
            have e1 : (t0 ++ [tl]).take (k - 1) = ((t0 ++ [tl]).take k).take (k - 1) := by
              rw [List.take_take]
              congr 1
              omega
            rw [e1, hy, ← hylen, List.take_left y [c]]
          have hteq : t0 ++ [tl] = y ++ (c :: (t0 ++ [tl]).drop k) := by
            conv_lhs => rw [← List.take_append_drop k (t0 ++ [tl])]
            rw [hy]
            simp
          have h2 : (t0 ++ [tl]).drop (k - 1) = c :: (t0 ++ [tl]).drop k := by
            conv_lhs => rw [hteq, ← hylen]
            exact List.drop_left y _
          by_cases hk1 : k = 1
          · subst hk1
            have hpre : (t0 ++ [tl]) <+: (c :: rest) := by
              have hh : (t0 ++ [tl]).drop 0 <+: c :: rest := by
                rw [h2]
                obtain ⟨w, hw⟩ := hdrop
                exact ⟨w, by rw [List.cons_append, hw]⟩
              simpa using hh
            exact hs (infixCh_of_pref hpre)
          · have hsuf2 : (t0 ++ [tl]).take (k - 1) <:+ u := by rw [h1]; exact hysuf
            have hdrop2 : (t0 ++ [tl]).drop (k - 1) <+: c :: rest := by
              rw [h2]
              obtain ⟨w, hw⟩ := hdrop
              exact ⟨w, by rw [List.cons_append, hw]⟩
            exact hk (k - 1) (by omega) (by omega) hsuf2 hdrop2

/-- Occurrence-freedom of `t0 ++ [tl]` is preserved by a `replaceAll`
pass for any pattern `p` whose replacement satisfies the side
conditions. -/
theorem replaceAll_other_free (p t0 r0 : List Char) (tl rl : Char)
    (ht0 : t0 ≠ []) (h3 : tl ∉ r0 ++ [rl]) (h4 : rl ∉ t0 ++ [tl])
    (s : List Char) (hs : ¬ (t0 ++ [tl]) <:+: s) :
    ¬ (t0 ++ [tl]) <:+: replaceAll p (r0 ++ [rl]) s := by
  have h := replaceAll_other_free_aux p t0 r0 tl rl ht0 h3 h4 s.length s []
    (le_refl _)
    (by
      intro hinf
      obtain ⟨a1, a2, ha⟩ := hinf
      have hlen := congrArg List.length ha
      simp only [List.length_append, List.length_singleton, List.length_nil] at hlen
      omega)
    hs
    (by
      intro k hk0 _ hsuf
      intro _
      obtain ⟨w, hw⟩ := hsuf
      have h0 : (t0 ++ [tl]).take k = [] := (List.append_eq_nil.mp hw).2
      rw [List.take_eq_nil_iff] at h0
      rcases h0 with h0 | h0
      · omega
      · exact absurd (congrArg List.length h0) (by simp))
  simpa using h

/-!
### No protected abbreviation followed by a period survives protection
-/

/-- The sentinel without its final character. -/
def sentinelInit : List Char := strL "<<<DOT>>"

theorem sentinel_decomp : sentinel = sentinelInit ++ ['>'] := by decide

theorem abbreviations_props :
    ∀ b ∈ abbreviations, b ≠ [] ∧ ('.' : Char) ∉ b ∧ ('>' : Char) ∉ b := by decide

theorem sentinelInit_no_dot : ('.' : Char) ∉ sentinelInit := by decide

/-- Freedom from `a ++ "."` is preserved by the remaining protection
passes. -/
theorem protect_keep (a : List Char) (ha : a ≠ []) (hgt : ('>' : Char) ∉ a) :
    ∀ (todo : List (List Char)), (∀ b ∈ todo, ('.' : Char) ∉ b) →
    ∀ acc, ¬ (a ++ ['.']) <:+: acc →
    ¬ (a ++ ['.']) <:+:
      todo.foldl (fun acc a => replaceAll (a ++ ['.']) (a ++ sentinel) acc) acc := by
  intro todo
  induction todo with
  | nil =>
    intro _ acc hacc
    simpa using hacc
  | cons b rest ih =>
    intro hcond acc hacc
    simp only [List.foldl_cons]
    apply ih (fun x hx => hcond x (by simp [hx]))
    have hb : ('.' : Char) ∉ b := hcond b (by simp)
    have hsent : b ++ sentinel = (b ++ sentinelInit) ++ ['>'] := by
      rw [sentinel_decomp, List.append_assoc]
    rw [hsent]
    apply replaceAll_other_free (b ++ ['.']) a (b ++ sentinelInit) '.' '>' ha
    · intro hmem
      rcases List.mem_append.mp hmem with h | h
      · rcases List.mem_append.mp h with h' | h'
        · exact hb h'
        · exact sentinelInit_no_dot h'
      · simp at h
    · intro hmem
      rcases List.mem_append.mp hmem with h | h
      · exact hgt h
      · simp at h
    · exact hacc

/-- The pass for `a` itself removes every occurrence of `a ++ "."`,
and the later passes keep it removed. -/
theorem protect_hits (a : List Char) :
    ∀ (todo : List (List Char)), a ∈ todo →
    (∀ b ∈ todo, b ≠ [] ∧ ('.' : Char) ∉ b ∧ ('>' : Char) ∉ b) →
    ∀ acc, ¬ (a ++ ['.']) <:+:
      todo.foldl (fun acc a => replaceAll (a ++ ['.']) (a ++ sentinel) acc) acc := by
  intro todo
  induction todo with
  | nil =>
    intro h
    simp at h
  | cons b rest ih =>
    intro hmem hcond acc
    simp only [List.foldl_cons]
    rcases List.mem_cons.mp hmem with rfl | hmem'
    · have hprops := hcond a (by simp)
      apply protect_keep a hprops.1 hprops.2.2 rest
        (fun x hx => (hcond x (by simp [hx])).2.1)
      have hsent : a ++ sentinel = (a ++ sentinelInit) ++ ['>'] := by
        rw [sentinel_decomp, List.append_assoc]
      rw [hsent]
      apply replaceAll_self_free a (a ++ sentinelInit) '.' '>' hprops.1
      · intro hmem2
        rcases List.mem_append.mp hmem2 with h | h
        · rcases List.mem_append.mp h with h' | h'
          · exact hprops.2.1 h'
          · exact sentinelInit_no_dot h'
        · simp at h
      · intro hmem2
        rcases List.mem_append.mp hmem2 with h | h
        · exact hprops.2.2 h
        · simp at h
    · exact ih hmem' (fun x hx => hcond x (by simp [hx])) _

/-- After protection, no occurrence of any protected abbreviation
followed by a literal period remains in the text handed to the
boundary-splitting regex. -/
theorem protect_no_abbr_dot (text : List Char) :
    ∀ a ∈ abbreviations, ¬ (a ++ ['.']) <:+: protectText text := by
  intro a ha
  unfold protectText
  exact protect_hits a abbreviations ha abbreviations_props text

/-!
### The splitter on boundary-free texts
-/

/-- No position of the scan admits a separator match. -/
def noSepScan (prev : Option Char) : List Char → Bool
  | [] => true
  | c :: rest => (sepLen prev (c :: rest)).isNone && noSepScan (some c) rest

theorem splitScan_cons_none {prev : Option Char} {c : Char} {rest : List Char}
    (acc : List Char) (h : sepLen prev (c :: rest) = none) :
    splitScan prev (c :: rest) acc = splitScan (some c) rest (c :: acc) := by
  unfold splitScan
  simp only [List.length_cons, splitScanF]
  rw [h]

theorem splitScan_noSep :
    ∀ (cur : List Char) (prev : Option Char) (acc : List Char),
      noSepScan prev cur = true → splitScan prev cur acc = [acc.reverse ++ cur] := by
  intro cur
  induction cur with
  | nil =>
    intro prev acc _
    simp [splitScan, splitScanF]
  | cons c rest ih =>
    intro prev acc h
    simp only [noSepScan, Bool.and_eq_true, Option.isNone_iff_eq_none] at h
    rw [splitScan_cons_none acc h.1]
    rw [ih (some c) (c :: acc) h.2]
    simp

/-!
### Deduplication lemmas
-/

theorem dedupBySpan_sublist :
    ∀ (l : List RawMatch) (seen : List (Nat × Nat)),
      List.Sublist (dedupBySpan l seen) l := by
  intro l
  induction l with
  | nil =>
    intro seen
    simp [dedupBySpan]
  | cons m rest ih =>
    intro seen
    simp only [dedupBySpan]
    by_cases h : m.span ∈ seen
    · rw [if_pos h]
      exact (ih seen).trans (List.sublist_cons_self m rest)
    · rw [if_neg h]
      exact (ih _).cons₂ m

theorem dedupBySpan_nodup_aux :
    ∀ (l : List RawMatch) (seen : List (Nat × Nat)),
      ((dedupBySpan l seen).map RawMatch.span).Nodup ∧
        ∀ m ∈ dedupBySpan l seen, m.span ∉ seen := by
  intro l
  induction l with
  | nil =>
    intro seen
    simp [dedupBySpan]
  | cons x rest ih =>
    intro seen
    simp only [dedupBySpan]
    by_cases h : x.span ∈ seen
    · rw [if_pos h]
      exact ih seen
    · rw [if_neg h]
      constructor
      · simp only [List.map_cons, List.nodup_cons]
        constructor
        · intro hmem
          obtain ⟨m, hm, hspan⟩ := List.mem_map.mp hmem
          exact (ih (x.span :: seen)).2 m hm (by rw [hspan]; exact List.mem_cons_self _ _)
        · exact (ih _).1
      · intro m hm
        rcases List.mem_cons.mp hm with rfl | hm2
        · exact h
        · intro hmem
          exact (ih (x.span :: seen)).2 m hm2 (List.mem_cons_of_mem _ hmem)

theorem dedupBySpan_mem_iff :
    ∀ (l : List RawMatch) (seen : List (Nat × Nat)) (m : RawMatch),
      m ∈ dedupBySpan l seen ↔
        ∃ l1 l2, l = l1 ++ m :: l2 ∧ m.span ∉ seen ∧
          ∀ m2 ∈ l1, m2.span ≠ m.span := by
  intro l
  induction l with
  | nil =>
    intro seen m
    simp only [dedupBySpan, List.not_mem_nil, false_iff]
    rintro ⟨l1, l2, heq, -, -⟩
    exact List.cons_ne_nil m l2 (List.append_eq_nil.mp heq.symm).2
  | cons x rest ih =>
    intro seen m
    simp only [dedupBySpan]
    by_cases h : x.span ∈ seen
    · rw [if_pos h, ih]
      constructor
      · rintro ⟨l1, l2, heq, hnot, hfirst⟩
        refine ⟨x :: l1, l2, by simp [heq], hnot, ?_⟩
        intro m2 hm2
        rcases List.mem_cons.mp hm2 with rfl | hm2b
        · intro hc
          exact hnot (hc ▸ h)
        · exact hfirst m2 hm2b
      · rintro ⟨l1, l2, heq, hnot, hfirst⟩
        cases l1 with
        | nil =>
          injection heq with h1 h2
          exact absurd (h1 ▸ h) hnot
        | cons y l1b =>
          injection heq with h1 h2
          exact ⟨l1b, l2, h2, hnot, fun m2 hm2 => hfirst m2 (by simp [hm2])⟩
    · rw [if_neg h]
      simp only [List.mem_cons]
      constructor
      · rintro (rfl | hmem)
        · exact ⟨[], rest, rfl, h, by simp⟩
        · obtain ⟨l1, l2, heq, hnot, hfirst⟩ := (ih _ _).mp hmem
          refine ⟨x :: l1, l2, by simp [heq], ?_, ?_⟩
          · intro hc
            exact hnot (List.mem_cons_of_mem _ hc)
          · intro m2 hm2
            rcases List.mem_cons.mp hm2 with rfl | hm2b
            · intro hc
              exact hnot (by rw [← hc]; exact List.mem_cons_self _ _)
            · exact hfirst m2 hm2b
      · rintro ⟨l1, l2, heq, hnot, hfirst⟩
        cases l1 with
        | nil =>
          injection heq with h1 h2
          exact Or.inl h1.symm
        | cons y l1b =>
          injection heq with h1 h2
          subst h1
          right
          apply (ih (x.span :: seen) m).mpr
          refine ⟨l1b, l2, h2, ?_, fun m2 hm2 => hfirst m2 (List.mem_cons_of_mem _ hm2)⟩
          intro hc
          rcases List.mem_cons.mp hc with hc2 | hc2
          · exact hfirst x (List.mem_cons_self _ _) hc2.symm
          · exact hnot hc2

/-!
### Shape of the extraction loop
-/

theorem collectResults_eq :
    ∀ l : List (List Char),
      collectResults l =
        (l.filter (fun s => !(find_matches_in_sentence s).isEmpty)).map
          (fun s => ⟨pyStrip s, find_matches_in_sentence s⟩) := by
  intro l
  induction l with
  | nil => simp [collectResults]
  | cons s rest ih =>
    by_cases h : find_matches_in_sentence s = []
    · simp [collectResults, h, ih, List.filter_cons]
    · simp [collectResults, h, ih, List.filter_cons]

/-!
### Concrete inputs used by the claim theorems
-/

/-- The abbreviation-safety example sentence of the specification. -/
def gomezText : List Char := strL "Entrega prevista en dic. 2025 para el Sr. Gómez."

/-- The same sentence with the English month abbreviation, which is
not in the protected list. -/
def decSplitText : List Char := strL "Entrega prevista en dec. Gómez."

/-- A sentence on which acceptance order differs from positional
order: the full-name category fires at offset 22 first, the numeric
category at offset 0 afterwards. -/
def orderDemoSentence : List Char := strL "31/12; el plazo es el 31 de diciembre"

/-- The numeric-with-year example sentence of the specification. -/
def vigenciaSentence : List Char := strL "Vigencia: 31/12/2025."

/-- A tab-separated numeric date. -/
def tabSentence : List Char := strL "31\t12"

/-- The resolver-fallback example document of the specification. -/
def resolverFallbackDoc : JValue :=
  JValue.obj
    [(strL "foo", JValue.str (strL "no vigencia aqui")),
     (strL "bar", JValue.arr
        [JValue.obj [(strL "text",
          JValue.str (strL "31 de diciembre de 2025 es la fecha"))]])]

/-- The text the fallback resolves for `resolverFallbackDoc`. -/
def resolverFallbackText : List Char :=
  strL "no vigencia aqui\n31 de diciembre de 2025 es la fecha"

/-- A document carrying both a `pages` shape and a flat `text` field. -/
def pagesOverTextDoc : JValue :=
  JValue.obj [(strL "text", JValue.str (strL "B")),
              (strL "pages", JValue.arr [JValue.str (strL "A")])]

/-- A document carrying both a `document.paragraphs` shape and a flat
`text` field. -/
def paragraphsOverTextDoc : JValue :=
  JValue.obj [(strL "text", JValue.str (strL "T")),
              (strL "document", JValue.obj [(strL "paragraphs",
                JValue.arr [JValue.obj [(strL "text", JValue.str (strL "P"))]])])]

/-- A document carrying both flat `content` and flat `text` fields. -/
def textOverContentDoc : JValue :=
  JValue.obj [(strL "content", JValue.str (strL "C")),
              (strL "text", JValue.str (strL "T"))]

/-- A fallback document whose only deep fragment sits two levels down
and is therefore dropped by the one-level fallback. -/
def oneLevelDoc : JValue :=
  JValue.obj [(strL "a", JValue.arr
    [JValue.arr [JValue.str (strL "deep")], JValue.str (strL "s")])]

/-- A document whose `text` field is a number, not a string. -/
def textNumberDoc : JValue := JValue.obj [(strL "text", JValue.num 42)]

/-- A document whose `pages` field cannot be iterated. -/
def pagesBadDoc : JValue := JValue.obj [(strL "pages", JValue.num 0)]

/-!
### Claim theorems
-/

/-- C1: the claim says `process_json_document` returns a result
without raising for every input document, all per-document failures
being absorbed.  The code violates this: for the document
`{"text": 42}` the resolver returns the number `42` verbatim (its
`try` block raises nothing), and `_split_into_sentences` then calls
`.replace` on a non-string, raising an `AttributeError` that
propagates out of `process_json_document`.  The theorem evaluates the
embedded pipeline at that failing input: the resolver yields the
non-string value and the document-level call errors. -/
theorem C1_process_raises_on_nonstring_text :
    process_json_document textNumberDoc = Except.error () ∧
    extract_text_from_json textNumberDoc = JValue.num 42 ∧
    extract_core textNumberDoc = Except.ok (JValue.num 42) :=
  ⟨rfl, rfl, rfl⟩

/-- C2: within one sentence the deduplicated match list has pairwise
distinct `(start, end)` spans; a raw match is retained exactly when no
earlier raw match (in the fixed category order
full-name → abbreviated-name → numeric → with-year → strict, patterns
in declared order, occurrences left to right — the order in which
`rawMatches` lists them) has the same span, so the first producer of a
span wins and overlapping-but-not-identical spans are all retained;
`_find_matches_in_sentence` returns exactly the text/category
projections of that deduplicated list. -/
theorem C2_dedup_unique_spans_first_wins (sentence : List Char) :
    (((dedupBySpan (rawMatches sentence) []).map RawMatch.span).Nodup) ∧
    (find_matches_in_sentence sentence =
      (dedupBySpan (rawMatches sentence) []).map (fun m => (m.text, m.category))) ∧
    (∀ m, m ∈ dedupBySpan (rawMatches sentence) [] ↔
      ∃ l1 l2, rawMatches sentence = l1 ++ m :: l2 ∧
        ∀ m2 ∈ l1, m2.span ≠ m.span) := by
  refine ⟨(dedupBySpan_nodup_aux _ _).1, rfl, ?_⟩
  intro m
  rw [dedupBySpan_mem_iff]
  constructor
  · rintro ⟨l1, l2, h1, -, h3⟩
    exact ⟨l1, l2, h1, h3⟩
  · rintro ⟨l1, l2, h1, h3⟩
    exact ⟨l1, l2, h1, by simp, h3⟩

/-- C3 (counterexample): the claim says each fragment returned by the
segmenter is trimmed of surrounding whitespace, and that a
boundary-free text returns as the single-element list of the trimmed
input.  On `" hola "` — a text with no boundary markers — the
segmenter returns the fragment verbatim, not trimmed. -/
theorem C3_counterexample :
    split_into_sentences (strL " hola ") = [strL " hola "] ∧
    pyStrip (strL " hola ") = strL "hola" ∧
    split_into_sentences (strL " hola ") ≠ [pyStrip (strL " hola ")] := by
  decide

/-- C3 (amended): fragments are filtered — only fragments whose
`strip()` is non-empty are kept — but they are returned verbatim
(untrimmed), after sentinel restoration.  For every text whose
protected form admits no separator match anywhere the splitter
returns the whole protected text as its sole fragment, so the
segmenter returns `[restoreFrag (protectText text)]` when the
protected text is not blank, and `[]` otherwise. -/
theorem C3_amended_boundary_free (text : List Char)
    (h : noSepScan none (protectText text) = true) :
    split_into_sentences text =
      if pyStrip (protectText text) = [] then []
      else [restoreFrag (protectText text)] := by
  unfold split_into_sentences
  rw [splitScan_noSep _ _ _ h]
  by_cases hb : pyStrip (protectText text) = []
  · simp [hb, List.filter_cons]
  · simp [hb, List.filter_cons]

theorem C3_witness :
    noSepScan none (protectText (strL " hola ")) = true ∧
    split_into_sentences (strL " hola ") =
      (if pyStrip (protectText (strL " hola ")) = [] then []
       else [restoreFrag (protectText (strL " hola "))]) :=
  ⟨by decide, C3_amended_boundary_free (strL " hola ") (by decide)⟩

/-- C4 (counterexample): the claim says the protected set covers month
abbreviations in two languages.  The English abbreviation `dec` — a
month token the abbreviated-name patterns themselves recognise — is
not in the protected list, and an occurrence of `dec.` does produce a
sentence split. -/
theorem C4_counterexample :
    split_into_sentences decSplitText =
      [strL "Entrega prevista en dec.", strL "Gómez."] ∧
    strL "dec" ∉ abbreviations ∧
    find_matches_in_sentence (strL "31 dec.") =
      [(strL "31 dec", strL "nombre_abreviado_flexible")] := by
  refine ⟨by decide, by decide, by decide⟩

/-- C4 (amended): the segmenter protects a fixed list of Spanish month
abbreviations and honorific titles (English-only month forms such as
`dec` are not protected): after protection, no occurrence of a
protected abbreviation immediately followed by a period remains in
the text handed to the boundary regex, so such an occurrence never
produces a split; in particular the specification example segments
into exactly one sentence. -/
theorem C4_amended_protection :
    (∀ text : List Char, ∀ a ∈ abbreviations,
      ¬ (a ++ ['.']) <:+: protectText text) ∧
    split_into_sentences gomezText = [gomezText] := by
  refine ⟨fun text => protect_no_abbr_dot text, by decide⟩

theorem C4_witness :
    strL "dic" ∈ abbreviations ∧
    ¬ (strL "dic" ++ ['.']) <:+: protectText gomezText :=
  ⟨by decide, C4_amended_protection.1 gomezText (strL "dic") (by decide)⟩

/-- C5: the resolver dispatches on the first matching shape in the
order pages → document.paragraphs → text → content → fallback (shown
by three two-shape documents), the fallback inspects one nesting level
only (the two-levels-deep fragment of `oneLevelDoc` is dropped), and
on the specification's fallback document the resolved text contains
both top-level fragments, newline-joined, and the pipeline finds the
date reference inside the `"bar"` fragment. -/
theorem C5_resolver_dispatch_and_fallback :
    extract_text_from_json pagesOverTextDoc = JValue.str (strL "A") ∧
    extract_text_from_json paragraphsOverTextDoc = JValue.str (strL "P") ∧
    extract_text_from_json textOverContentDoc = JValue.str (strL "T") ∧
    extract_text_from_json oneLevelDoc = JValue.str (strL "s") ∧
    extract_text_from_json resolverFallbackDoc = JValue.str resolverFallbackText ∧
    (strL "no vigencia aqui") <:+: resolverFallbackText ∧
    (strL "31 de diciembre de 2025 es la fecha") <:+: resolverFallbackText ∧
    process_json_document resolverFallbackDoc =
      Except.ok ⟨1, [⟨resolverFallbackText,
        [(strL "31 de diciembre", strL "nombre_completo_flexible"),
         (strL "31 de diciembre de 2025", strL "con_año")]⟩]⟩ := by
  refine ⟨rfl, rfl, rfl, rfl, rfl, by decide, by decide, rfl⟩

set_option maxHeartbeats 4000000 in
/-- C6: matches appear in the order they were first accepted by the
deduplicator — a sublist of the category/pattern/occurrence iteration
order — and not sorted by start position: on `orderDemoSentence` the
accepted start positions are `[22, 0]`, which is not ascending. -/
theorem C6_output_order_is_acceptance_order :
    (∀ s : List Char,
      List.Sublist (dedupBySpan (rawMatches s) []) (rawMatches s)) ∧
    ((dedupBySpan (rawMatches orderDemoSentence) []).map RawMatch.startPos =
      [22, 0]) ∧
    ¬ List.Sorted (· ≤ ·)
        ((dedupBySpan (rawMatches orderDemoSentence) []).map RawMatch.startPos) := by
  refine ⟨fun s => dedupBySpan_sublist _ _, by decide, ?_⟩
  have h : (dedupBySpan (rawMatches orderDemoSentence) []).map RawMatch.startPos =
      [22, 0] := by decide
  rw [h]
  decide

/-- C7: the pipeline keeps exactly the sentences with a non-empty
match list (a filter, hence a sublist preserving the relative order of
the segmented text), pairs each with its stripped display form and its
matches, and reports `total_sentences_found` equal to the length of
the returned sentence list — also through `process_json_document`
whenever it succeeds. -/
theorem C7_pipeline_filter_order_total :
    (∀ text : List Char, extract_sentences_with_date text =
      ((split_into_sentences text).filter
        (fun s => !(find_matches_in_sentence s).isEmpty)).map
        (fun s => ⟨pyStrip s, find_matches_in_sentence s⟩)) ∧
    (∀ text : List Char, List.Sublist
      ((split_into_sentences text).filter
        (fun s => !(find_matches_in_sentence s).isEmpty))
      (split_into_sentences text)) ∧
    (∀ text : List Char, (mk_extraction_result text).total_sentences_found =
      (mk_extraction_result text).sentences.length) ∧
    (∀ (j : JValue) (r : ExtractionResult), process_json_document j = Except.ok r →
      r.total_sentences_found = r.sentences.length) := by
  refine ⟨?_, fun text => List.filter_sublist _, ?_, ?_⟩
  · intro text
    unfold extract_sentences_with_date
    exact collectResults_eq _
  · intro text
    rw [show mk_extraction_result text =
      ⟨(extract_sentences_with_date text).length, extract_sentences_with_date text⟩
      from rfl]
  intro j r h
  unfold process_json_document at h
  revert h
  cases extract_text_from_json j <;> intro h <;> simp at h
  rename_i a
  rw [← h, show mk_extraction_result a =
    ⟨(extract_sentences_with_date a).length, extract_sentences_with_date a⟩ from rfl]

theorem C7_witness :
    process_json_document (JValue.obj [(strL "text", JValue.str (strL "x"))]) =
      Except.ok (mk_extraction_result (strL "x")) ∧
    (mk_extraction_result (strL "x")).total_sentences_found =
      (mk_extraction_result (strL "x")).sentences.length := by
  constructor
  · rfl
  · exact C7_pipeline_filter_order_total.2.2.2
      (JValue.obj [(strL "text", JValue.str (strL "x"))])
      (mk_extraction_result (strL "x")) (by rfl)

/-- C8: whenever shape resolution (the `try` body) fails, the resolver
catches the failure and returns the textual rendering `str(json_data)`
of the whole input instead of propagating it; `extract_text_from_json`
itself is a total function. -/
theorem C8_resolver_catches_and_stringifies (j : JValue)
    (h : extract_core j = Except.error ()) :
    extract_text_from_json j = JValue.str (pyStr j) := by
  unfold extract_text_from_json
  rw [h]

theorem C8_witness :
    extract_core pagesBadDoc = Except.error () ∧
    extract_text_from_json pagesBadDoc = JValue.str (pyStr pagesBadDoc) :=
  ⟨rfl, C8_resolver_catches_and_stringifies pagesBadDoc rfl⟩

/-- C9 (counterexample): the claim says the numeric separators are
exactly `{/, -, ., space}` and no other character.  The class
`[/\-.\s]` also accepts every other whitespace character: on
`"31\t12"` (tab separator) the numeric category reports a match. -/
theorem C9_counterexample :
    rawMatches tabSentence =
      [⟨strL "31\t12", strL "numerico", 0, 5⟩] ∧
    ¬ ('\t' = '/' ∨ '\t' = '-' ∨ '\t' = '.' ∨ '\t' = ' ') := by
  decide

/-- Characterisation of the two numeric patterns: a match at `i` is
exactly a word boundary, the first two-character token, one separator
character of the class `[/\-.\s]`, the second token, and a final word
boundary, spanning five characters. -/
theorem numPatternChar (a b : List Char) (ha : a.length = 2) (hb : b.length = 2) :
    ∀ (s : List Char) (i : Nat),
      matchAt (mSeqs [mWB, mLit a, mCls isSepCh, mLit b, mWB]) s i =
        if boundaryB s i = true ∧ litAtP a s i ∧
            clsHeadB isSepCh s (i + 2) = true ∧ litAtP b s (i + 3) ∧
            boundaryB s (i + 5) = true
        then some (i + 5) else none := by
  intro s i
  by_cases h1 : boundaryB s i = true
  case neg =>
    have e1 : mWB s i = [] := by simp only [mWB]; rw [if_neg h1]
    simp [matchAt, mSeqs, mSeq, e1, h1]
  case pos =>
  have e1 : mWB s i = [i] := by simp only [mWB]; rw [if_pos h1]
  by_cases h2 : litAtP a s i
  case neg =>
    have e2 : mLit a s i = [] := by simp only [mLit]; rw [if_neg h2]
    simp [matchAt, mSeqs, mSeq, e1, e2, h2]
  case pos =>
  have e2 : mLit a s i = [i + 2] := by simp only [mLit]; rw [if_pos h2, ha]
  by_cases h3 : clsHeadB isSepCh s (i + 2) = true
  case neg =>
    have e3 : mCls isSepCh s (i + 2) = [] := by simp only [mCls]; rw [if_neg h3]
    simp [matchAt, mSeqs, mSeq, e1, e2, e3, h3]
  case pos =>
  have e3 : mCls isSepCh s (i + 2) = [i + 3] := by
    have harith : i + 2 + 1 = i + 3 := by omega
    simp only [mCls]
    rw [if_pos h3, harith]
  by_cases h4 : litAtP b s (i + 3)
  case neg =>
    have e4 : mLit b s (i + 3) = [] := by simp only [mLit]; rw [if_neg h4]
    simp [matchAt, mSeqs, mSeq, e1, e2, e3, e4, h4]
  case pos =>
  have e4 : mLit b s (i + 3) = [i + 5] := by
    have harith : i + 3 + 2 = i + 5 := by omega
    simp only [mLit]
    rw [if_pos h4, hb, harith]
  by_cases h5 : boundaryB s (i + 5) = true
  case neg =>
    have e5 : mWB s (i + 5) = [] := by simp only [mWB]; rw [if_neg h5]
    simp [matchAt, mSeqs, mSeq, e1, e2, e3, e4, e5, h5]
  case pos =>
  have e5 : mWB s (i + 5) = [i + 5] := by simp only [mWB]; rw [if_pos h5]
  rw [if_pos ⟨h1, h2, h3, h4, h5⟩]
  simp [matchAt, mSeqs, mSeq, mEps, e1, e2, e3, e4, e5]

/-- C9 (amended): a numeric-category pattern matches at `i` exactly
when `31` and `12` (in either order) are directly adjoined by one
separator drawn from `/`, `-`, `.` or any whitespace character
(`isSepCh`), between word boundaries; and on
`"Vigencia: 31/12/2025."` the with-year category reports the span
covering the full date including the year while the numeric
category's shorter-span match is also retained. -/
theorem C9_amended_numeric_shape :
    (∀ (s : List Char) (i : Nat), matchAt p_num1 s i =
      if boundaryB s i = true ∧ litAtP (strL "31") s i ∧
          clsHeadB isSepCh s (i + 2) = true ∧ litAtP (strL "12") s (i + 3) ∧
          boundaryB s (i + 5) = true
      then some (i + 5) else none) ∧
    (∀ (s : List Char) (i : Nat), matchAt p_num2 s i =
      if boundaryB s i = true ∧ litAtP (strL "12") s i ∧
          clsHeadB isSepCh s (i + 2) = true ∧ litAtP (strL "31") s (i + 3) ∧
          boundaryB s (i + 5) = true
      then some (i + 5) else none) ∧
    dedupBySpan (rawMatches vigenciaSentence) [] =
      [⟨strL "31/12", strL "numerico", 10, 15⟩,
       ⟨strL "31/12/2025", strL "con_año", 10, 20⟩] := by
  refine ⟨?_, ?_, by decide⟩
  · exact numPatternChar (strL "31") (strL "12") rfl rfl
  · exact numPatternChar (strL "12") (strL "31") rfl rfl

/-- C10: the segmenter unconditionally rewrites the sentinel
`<<<DOT>>>` to `.` when restoring fragments, so no returned sentence
can contain the sentinel and an input that contains it literally is
not reproduced textually even when no sentence boundary exists. -/
theorem C10_sentinel_rewritten :
    (∀ s : List Char, ¬ sentinel <:+: restoreFrag s) ∧
    split_into_sentences (strL "a<<<DOT>>>b") = [strL "a.b"] ∧
    strL "a.b" ≠ strL "a<<<DOT>>>b" := by
  refine ⟨?_, by decide, by decide⟩
  intro s
  have h := replaceAll_self_free sentinelInit [] '>' '.' (by decide) (by decide)
    (by decide) s
  unfold restoreFrag
  rw [sentinel_decomp]
  simpa using h

end Dic31
